import Mathlib

/-!
Shallow embedding of the iplib Go library (package iplib): IP addresses are
modelled as lists of byte values (`List Nat`, each element < 256), mirroring
Go's `net.IP` byte slices of length 4 (IPv4) or 16 (IPv6).  Byte arithmetic
wraps modulo 256 exactly where the Go code relies on `byte` overflow.

The embedding follows the source files: the package-level address utilities
(NextIP, PreviousIP, CompareIPs, the Increment/Decrement family, the integer
conversions), the Net4 netblock type (net4.go), the Net6 netblock type
(the unnamed source file defining Net6) and NewNetBetween (net.go; the
second unnamed source file carries a variant of the same function, noted
where the two differ).
-/

namespace Iplib

/-- Every entry of the byte list is a legal byte value (< 256). -/
def validBytes (ip : List Nat) : Prop := ∀ b ∈ ip, b < 256

instance : DecidablePred validBytes := fun ip =>
  inferInstanceAs (Decidable (∀ b ∈ ip, b < 256))

/-- Big-endian value of a byte list; this is what Go's
`binary.BigEndian.Uint32` and `big.Int.SetBytes` compute. -/
def ipVal : List Nat → Nat
  | [] => 0
  | b :: bs => b * 256 ^ bs.length + ipVal bs

/-- Embedding of Go `bytes.Compare`: lexicographic byte comparison with the
shorter slice sorting first when it is a prefix of the longer one. -/
def bytesCompare : List Nat → List Nat → Int
  | [], [] => 0
  | [], _ :: _ => -1
  | _ :: _, [] => 1
  | a :: as, b :: bs => if a < b then -1 else if b < a then 1 else bytesCompare as bs

/-- One step of the carry loop shared by NextIP and friends, acting on the
REVERSED byte list (the Go loops walk from the last byte towards the first).
`none` means the increment carried out of every byte. -/
def incBytesRev : List Nat → Option (List Nat)
  | [] => none
  | b :: rest =>
    let b1 := (b + 1) % 256
    if b1 > 0 then some (b1 :: rest)
    else
      match incBytesRev rest with
      | some r => some (0 :: r)
      | none => none

/-- Borrow loop of PreviousIP on the reversed byte list; `none` means the
decrement borrowed out of every byte. -/
def decBytesRev : List Nat → Option (List Nat)
  | [] => none
  | b :: rest =>
    let b1 := (b + 255) % 256
    if b1 ≠ 255 then some (b1 :: rest)
    else
      match decBytesRev rest with
      | some r => some (255 :: r)
      | none => none

/-- Go `Version`: 4 for a 4-byte slice, 6 otherwise (0 for nil; the empty
list models a nil slice). -/
def Version (ip : List Nat) : Nat :=
  if ip.length = 0 then 0 else if ip.length = 4 then 4 else 6

/-- Go `is6to4`: bytes 0-9 are zero and bytes 10 and 11 are 0xff. -/
def is6to4 (ip : List Nat) : Bool :=
  decide ((∀ i ∈ List.range 10, ip.getD i 1 = 0) ∧ ip.getD 10 0 = 255 ∧ ip.getD 11 0 = 255)

/-- Go `EffectiveVersion`: like Version but 4 for an RFC4291 v4-mapped
16-byte address. -/
def EffectiveVersion (ip : List Nat) : Nat :=
  if ip.length = 0 then 0
  else if ip.length = 4 then 4
  else if is6to4 ip then 4
  else 6

/-- Go `ForceIP4`: drop the 12 leading bytes of a 16-byte slice. -/
def ForceIP4 (ip : List Nat) : List Nat :=
  if ip.length = 16 then ip.drop 12 else ip

/-- The RFC4291 v4-in-v6 prefix used by Go's `net.IP.To16`. -/
def v4InV6Prefix : List Nat := [0, 0, 0, 0, 0, 0, 0, 0, 0, 0, 255, 255]

/-- Go `net.IP.To16`: a 4-byte address becomes the v4-mapped 16-byte
address; lengths other than 4 and 16 give nil (modelled as []). -/
def to16 (ip : List Nat) : List Nat :=
  if ip.length = 16 then ip
  else if ip.length = 4 then v4InV6Prefix ++ ip
  else []

/-- Go `net.IP.To4`: identity on 4-byte slices, the low 4 bytes of a
v4-mapped 16-byte slice, nil (modelled []) otherwise. -/
def to4 (ip : List Nat) : List Nat :=
  if ip.length = 4 then ip
  else if ip.length = 16 ∧ is6to4 ip then ip.drop 12 else []

/-- Go `CompareIPs`: `bytes.Compare(a.To16(), b.To16())`. -/
def CompareIPs (a b : List Nat) : Int :=
  bytesCompare (to16 a) (to16 b)

/-- Models Go's `copy(ipn, ip)` into a fresh zeroed slice of length `w`. -/
def goCopyPad (w : Nat) (ip : List Nat) : List Nat :=
  ip.take w ++ List.replicate (w - ip.length) 0

/-- Go `NextIP`: increment by one with byte carry, returning the input
unchanged when the carry runs off the top (saturation at all-ones). -/
def NextIP (ip : List Nat) : List Nat :=
  let w := if Version ip = 4 then 4 else 16
  match incBytesRev (goCopyPad w ip).reverse with
  | some r => r.reverse
  | none => ip

/-- Go `PreviousIP`: decrement by one with byte borrow, returning the input
unchanged when the borrow runs off the top (saturation at all-zeros). -/
def PreviousIP (ip : List Nat) : List Nat :=
  let w := if Version ip = 4 then 4 else 16
  match decBytesRev (goCopyPad w ip).reverse with
  | some r => r.reverse
  | none => ip

/-- Go `generateNetLimits`. -/
def generateNetLimits (version filler : Nat) : List Nat :=
  List.replicate (if version = 6 then 16 else version) filler

/-- Go `IP4ToUint32` (returns 0 for a non-effective-v4 input). -/
def IP4ToUint32 (ip : List Nat) : Nat :=
  if EffectiveVersion ip ≠ 4 then 0 else ipVal (ForceIP4 ip)

/-- Go `Uint32ToIP4`: 4 big-endian bytes of a uint32 value. -/
def Uint32ToIP4 (v : Nat) : List Nat :=
  [v / 2 ^ 24 % 256, v / 2 ^ 16 % 256, v / 2 ^ 8 % 256, v % 256]

/-- Go `IPToBigint`: `big.Int.SetBytes`, the big-endian value (always
non-negative). -/
def IPToBigint (ip : List Nat) : Int := (ipVal ip : Int)

/-- Go `BigintToIP6`.  The source inspects `z.Bytes()` (the big-endian
bytes of the ABSOLUTE value): more than 16 bytes, i.e. `|z| >= 2^128`,
gives the all-ones address; then a non-positive sign gives all-zeros;
otherwise the bytes are left-padded with zeros to 16, which is exactly the
16 big-endian base-256 digits of z. -/
def BigintToIP6 (z : Int) : List Nat :=
  if 2 ^ 128 ≤ z.natAbs then List.replicate 16 255
  else if z ≤ 0 then List.replicate 16 0
  else (List.range 16).map fun i => z.toNat / 256 ^ (15 - i) % 256

/-- Go `IncrementIP4By` (count is a uint32, so callers pass count < 2^32;
`i + count` wraps modulo 2^32 and overflow is detected by `d < i`). -/
def IncrementIP4By (ip : List Nat) (count : Nat) : List Nat :=
  let i := IP4ToUint32 ip
  let d := (i + count) % 2 ^ 32
  if d < i then generateNetLimits 4 255 else Uint32ToIP4 d

/-- Go `IncrementIP6By` (count is a `*big.Int`, modelled as an Int). -/
def IncrementIP6By (ip : List Nat) (count : Int) : List Nat :=
  BigintToIP6 (IPToBigint ip + count)

/-- Go `IncrementIPBy`: route on `Version`. -/
def IncrementIPBy (ip : List Nat) (count : Nat) : List Nat :=
  if Version ip = 4 then IncrementIP4By ip count
  else IncrementIP6By ip (count : Int)

/-- Go `DecrementIP4By`: uint32 wrap-around subtraction `i - count`
(modelled as `i + 2^32 - count` modulo 2^32 for count < 2^32), with
underflow detected by `d > i`. -/
def DecrementIP4By (ip : List Nat) (count : Nat) : List Nat :=
  let i := IP4ToUint32 ip
  let d := (i + 2 ^ 32 - count % 2 ^ 32) % 2 ^ 32
  if i < d then generateNetLimits 4 0 else Uint32ToIP4 d

/-- Go `DecrementIP6By`. -/
def DecrementIP6By (ip : List Nat) (count : Int) : List Nat :=
  BigintToIP6 (IPToBigint ip - count)

/-- Go `DecrementIPBy`: route on `EffectiveVersion` (note the asymmetry
with IncrementIPBy, which routes on `Version`). -/
def DecrementIPBy (ip : List Nat) (count : Nat) : List Nat :=
  if EffectiveVersion ip = 4 then DecrementIP4By ip count
  else DecrementIP6By ip (count : Int)

/-- Error values of the package (errors.New sentinels). -/
inductive Err where
  | unsupportedIPVer
  | addressAtEndOfRange
  | addressOutOfRange
  | badMaskLength
  | broadcastAddress
  | networkAddress
  | noValidRange
  deriving DecidableEq, Repr

/-- Go `net.CIDRMask(ones, 8*n)` as n bytes: nil (modelled []) when
`ones > 8*n`; otherwise byte i covers bits `8*i .. 8*i+7` of the prefix. -/
def cidrMaskBytes (ones n : Nat) : List Nat :=
  if 8 * n < ones then []
  else (List.range n).map fun i => 256 - 2 ^ (8 - min 8 (ones - 8 * i))

/-- Go `net.IP.Mask` for the same-length case: bytewise AND (nil on a
length mismatch, which the library never produces on the paths modelled). -/
def maskIP (ip mask : List Nat) : List Nat :=
  if ip.length = mask.length then List.zipWith Nat.land ip mask else []

/-- The byte-wise `base + wildcard` computation of `Net4.finalAddress` and
`Net6.LastAddress` (Go adds the wildcard byte to the address byte; on the
aligned addresses the library constructs this never wraps, but the byte
addition itself is modular). -/
def addWildcard (ip mask : List Nat) : List Nat :=
  List.zipWith (fun b m => (b + (255 - m)) % 256) ip mask

/-- Go `net.IPNet.Contains`: normalize the probe with To4, require equal
lengths, then compare under the mask. -/
def ipnetContains (nip mask ip : List Nat) : Bool :=
  let x := to4 ip
  let ip' := if x ≠ [] then x else ip
  decide (ip'.length = nip.length ∧
    ∀ i ∈ List.range nip.length,
      Nat.land (nip.getD i 0) (mask.getD i 0) = Nat.land (ip'.getD i 0) (mask.getD i 0))

/-- The Net4 netblock (net4.go): a base address, its prefix length and the
stored version tag.  The Go struct keeps a `net.IPNet`; the mask is always
`net.CIDRMask(masklen, 32)`, so we store the prefix length and derive the
mask. -/
structure Net4 where
  ip : List Nat
  masklen : Nat
  version : Nat
  deriving DecidableEq, Repr

/-- Go `NewNet4`: reject non-(effective-)v4 addresses, otherwise store the
masked base address. -/
def NewNet4 (ip : List Nat) (masklen : Nat) : Except Err Net4 :=
  if EffectiveVersion ip ≠ 4 then .error .unsupportedIPVer
  else .ok ⟨maskIP ip (cidrMaskBytes masklen 4), masklen, 4⟩

namespace Net4

/-- The stored netmask, `n.Mask()`. -/
def mask (n : Net4) : List Nat := cidrMaskBytes n.masklen 4

/-- Go `Net4.IP` / `Net4.NetworkAddress`. -/
def NetworkAddress (n : Net4) : List Nat := n.ip

/-- Go `Net4.finalAddress` / `Net4.BroadcastAddress`: base plus wildcard. -/
def BroadcastAddress (n : Net4) : List Nat := addWildcard n.ip n.mask

/-- Go `Net4.Contains`. -/
def Contains (n : Net4) (ip : List Nat) : Bool := ipnetContains n.ip n.mask ip

/-- Go `Net4.Count`: 0 for a /31, 1 for a /32, otherwise 2^(32-masklen)-2.
The general case is computed through `math.Pow` and a float-to-uint32
conversion; for masklen >= 1 the value is exact, and for masklen 0 the
uint32 subtraction wraps to 2^32-2, which the modulus reproduces. -/
def Count (n : Net4) : Nat :=
  let exp := 32 - n.masklen
  if exp = 1 then 0
  else if exp = 0 then 1
  else (2 ^ exp - 2) % 2 ^ 32

/-- Go `Net4.FirstAddress`. -/
def FirstAddress (n : Net4) : List Nat :=
  if n.masklen + 2 > 32 then n.ip else NextIP n.ip

/-- Go `Net4.LastAddress`. -/
def LastAddress (n : Net4) : List Nat :=
  if n.masklen ≥ 31 then n.BroadcastAddress else PreviousIP n.BroadcastAddress

end Net4

/-- The chain `addrList[0] = start; addrList[i] = NextIP(addrList[i-1])`
materialized by both Enumerate implementations. -/
def ipChain : List Nat → Nat → List (List Nat)
  | _, 0 => []
  | s, k + 1 => s :: ipChain (NextIP s) k

namespace Net4

/-- Go `Net4.Enumerate(size, offset int)`.  `none` models a runtime panic:
`make` with a negative size, slicing with a negative offset, or the
unguarded `addrList[0]` write when the adjusted size is 0 (which happens
exactly when offset equals the count on the general path). -/
def Enumerate (n : Net4) (size offset : Int) : Option (List (List Nat)) :=
  let count : Int := (n.Count : Int)
  if offset > count then some []
  else
    let size := if size > count - offset ∨ size = 0 then count - offset else size
    if count = 1 then some [n.ip]
    else if count = 0 then
      if offset < 0 then none
      else some ([n.ip, n.BroadcastAddress].drop offset.toNat)
    else
      let netu := (IP4ToUint32 n.FirstAddress + (offset % 2 ^ 32).toNat) % 2 ^ 32
      if size ≤ 0 then none
      else some (ipChain (Uint32ToIP4 netu) size.toNat)

/-- Go `Net4.NextIP`: the pair (address, error); Go can return an address
together with a non-nil advisory error. -/
def nextIPIn (n : Net4) (ip : List Nat) : List Nat × Option Err :=
  if ¬ n.Contains ip then ([], some .addressOutOfRange)
  else
    let xip := NextIP ip
    if ¬ n.Contains xip then ([], some .addressAtEndOfRange)
    else if n.BroadcastAddress = xip ∧ n.version = 4 then (xip, some .broadcastAddress)
    else (xip, none)

/-- Go `Net4.PreviousIP`. -/
def previousIPIn (n : Net4) (ip : List Nat) : List Nat × Option Err :=
  if ¬ n.Contains ip then ([], some .addressOutOfRange)
  else
    let xip := PreviousIP ip
    if ¬ n.Contains xip then ([], some .addressAtEndOfRange)
    else if n.NetworkAddress = xip ∧ n.version = 4 then (xip, some .networkAddress)
    else (xip, none)

/-- The append loop inside Go `Net4.Subnet`: keep appending the next
adjacent block while the last block's broadcast address is below the
parent's.  The Go loop is bounded by the block count; fuel 2^32 dominates
every IPv4 case. -/
def subnetLoop : Nat → Net4 → List Nat → List Net4
  | 0, _, _ => []
  | fuel + 1, last, stop =>
    if CompareIPs last.BroadcastAddress stop = -1 then
      let ng : Net4 := ⟨NextIP last.BroadcastAddress, last.masklen, last.version⟩
      ng :: subnetLoop fuel ng stop
    else []

/-- Go `Net4.Subnet`.  NOTE: the source checks `ones > masklen` BEFORE
substituting the 0 sentinel with `ones+1`, so `Subnet(0)` fails for every
prefix other than /0 even though the function's own doc comment promises a
split in half. -/
def Subnet (n : Net4) (masklen : Nat) : Except Err (List Net4) :=
  if n.masklen > masklen then .error .badMaskLength
  else
    let m := if masklen = 0 then n.masklen + 1 else masklen
    let first : Net4 := ⟨n.ip, m, n.version⟩
    .ok (first :: subnetLoop (2 ^ 32) first n.BroadcastAddress)

/-- Go `Net4.Supernet`. -/
def Supernet (n : Net4) (masklen : Nat) : Except Err Net4 :=
  if n.masklen < masklen then .error .badMaskLength
  else
    let m := if masklen = 0 then n.masklen - 1 else masklen
    .ok ⟨maskIP n.ip (cidrMaskBytes m 4), m, n.version⟩

end Net4

/-- The Net6 netblock.  The struct in the source is mid-refactor: its
declaration carries a `hostmask` field while the methods
`nextIPWithNetworkBytes` / `previousIPWithNetworkBytes` read an (older)
`netbytes` field that bounds how many leading bytes stepping may touch.
We keep the fields the modelled methods actually read: the base address,
the prefix length, the network-byte boundary and the version tag. -/
structure Net6 where
  ip : List Nat
  masklen : Nat
  netbytes : Nat
  version : Nat
  deriving DecidableEq, Repr

namespace Net6

/-- The stored netmask, `n.Mask()` (always `net.CIDRMask(masklen, 128)`). -/
def mask (n : Net6) : List Nat := cidrMaskBytes n.masklen 16

/-- Go `Net6.IP`. -/
def IP (n : Net6) : List Nat := n.ip

/-- Go `Net6.Contains`. -/
def Contains (n : Net6) (ip : List Nat) : Bool := ipnetContains n.ip n.mask ip

/-- Go `Net6.Count`: 0 for a /127, 1 for a /128 and 2^(128-masklen)
otherwise (an exact big.Int power). -/
def Count (n : Net6) : Nat :=
  let exp := 128 - n.masklen
  if exp = 1 then 0
  else if exp = 0 then 1
  else 2 ^ exp

/-- Go `Net6.FirstAddress` (the version tag of a constructed Net6 is
always 6, making the first branch the live one). -/
def FirstAddress (n : Net6) : List Nat :=
  if n.version = 6 then n.ip
  else if n.masklen + 2 > 128 then n.ip else NextIP n.ip

/-- Go `Net6.LastAddress`: base plus wildcard, byte by byte. -/
def LastAddress (n : Net6) : List Nat := addWildcard n.ip n.mask

/-- `big.Int.IsInt64` for the (non-negative) count: true iff it is at most
2^63 - 1. -/
def countIsInt64 (n : Net6) : Bool := decide (n.Count ≤ 2 ^ 63 - 1)

/-- The capped count Go `Net6.Enumerate` computes before any other work:
`uint64(MaxUint)` unless `Count()` fits an int64. -/
def cappedCount (n : Net6) : Nat :=
  if n.countIsInt64 then n.Count else 2 ^ 64 - 1

/-- Go `Net6.Enumerate(size, offset uint64)`.  As in Net4, `none` models
the unguarded `addrList[0]` write when the adjusted size is 0. -/
def Enumerate (n : Net6) (size offset : Nat) : Option (List (List Nat)) :=
  let count := n.cappedCount
  if offset > count then some []
  else
    let size := if size > count - offset ∨ size = 0 then count - offset else size
    if size = 0 then none
    else some (ipChain (IncrementIP6By n.FirstAddress (offset : Int)) size)

/-- Go `Net6.nextIPWithNetworkBytes`: copy the first `netbytes` bytes into
a fresh zeroed 16-byte slice (so every host-side byte of the copy is 0)
and run the carry loop over those bytes only; if the carry runs out,
return the input unchanged. -/
def nextIPWithNetworkBytes (n : Net6) (ip : List Nat) : List Nat :=
  match incBytesRev (ip.take n.netbytes).reverse with
  | some r => r.reverse ++ List.replicate (16 - n.netbytes) 0
  | none => ip

/-- Go `Net6.previousIPWithNetworkBytes`. -/
def previousIPWithNetworkBytes (n : Net6) (ip : List Nat) : List Nat :=
  match decBytesRev (ip.take n.netbytes).reverse with
  | some r => r.reverse ++ List.replicate (16 - n.netbytes) 0
  | none => ip

/-- Go `Net6.NextIP`: no membership test on the input; the only check is
whether the stepped address is contained in the block. -/
def nextIPIn (n : Net6) (ip : List Nat) : Except Err (List Nat) :=
  let xip := n.nextIPWithNetworkBytes ip
  if ¬ n.Contains xip then .error .addressOutOfRange else .ok xip

/-- Go `Net6.PreviousIP`: same shape as NextIP but with the
end-of-range error value. -/
def previousIPIn (n : Net6) (ip : List Nat) : Except Err (List Nat) :=
  let xip := n.previousIPWithNetworkBytes ip
  if ¬ n.Contains xip then .error .addressAtEndOfRange else .ok xip

end Net6

/-- The polymorphic result of NewNet / NewNetBetween. -/
inductive NetV where
  | v4 (n : Net4)
  | v6 (n : Net6)
  deriving DecidableEq, Repr

/-- Go `NewNet` as used by `NewNetBetween`: dispatch on `Version`.  The
source's `NewNet6` takes a hostmask argument it stores separately; no
field other than the masked base address and the prefix length is read on
the NewNetBetween paths, and the stepping boundary `netbytes` defaults to
the 8-byte network half, per the package documentation. -/
def mkNetV (ip : List Nat) (masklen : Nat) : NetV :=
  if Version ip = 6 then .v6 ⟨maskIP ip (cidrMaskBytes masklen 16), masklen, 8, 6⟩
  else .v4 ⟨maskIP ip (cidrMaskBytes masklen 4), masklen, 4⟩

/-- The candidate netblock `NewNet(ipa, i)` examined by the NewNetBetween
loop, reduced to the two addresses the loop compares: the network address
(the masked base) and the last/broadcast address (base plus wildcard).
`Net4.NetworkAddress`/`Net4.BroadcastAddress` and `Net6.FirstAddress`/
`Net6.LastAddress` all reduce to these on constructed blocks. -/
def netBetweenCand (ipa : List Nat) (i : Nat) : List Nat × List Nat :=
  let mask := cidrMaskBytes i ipa.length
  let base := maskIP ipa mask
  (base, addWildcard base mask)

/-- The fit test of the NewNetBetween loop: the candidate's first address
is at or above `ipa` and its last address is at or below `ipb`. -/
def fitB (ipa ipb : List Nat) (i : Nat) : Bool :=
  decide (0 ≤ CompareIPs (netBetweenCand ipa i).1 ipa) &&
    decide (CompareIPs (netBetweenCand ipa i).2 ipb ≤ 0)

/-- The exactness flag computed inside the loop's taken branch. -/
def exactB (ipa ipb : List Nat) (i : Nat) : Bool :=
  decide (CompareIPs (netBetweenCand ipa i).1 ipa = 0) &&
    decide (CompareIPs (netBetweenCand ipa i).2 ipb = 0)

/-- The `for i := 1; i <= maskMax; i++` scan of NewNetBetween, over an
explicit list of candidate prefix lengths. -/
def betweenScan (ipa ipb : List Nat) : List Nat → Option (Nat × Bool)
  | [] => none
  | i :: rest =>
    if fitB ipa ipb i then some (i, exactB ipa ipb i)
    else betweenScan ipa ipb rest

/-- Go `NewNetBetween` (net.go).  The net.go body compares the candidate's
NetworkAddress/BroadcastAddress against NextIP(a)/PreviousIP(b); the
variant in the second unnamed file compares FirstAddress/LastAddress
instead, which disagrees with net_test.go's expectations on v4 (exactness
of 192.168.1.0/24), so net.go is taken as the authoritative body. -/
def NewNetBetween (a b : List Nat) : Except Err (NetV × Bool) :=
  if CompareIPs a b ≠ -1 then .error .noValidRange
  else if Version a ≠ Version b then .error .noValidRange
  else
    let maskMax := if EffectiveVersion a = 4 then 32 else 128
    match betweenScan (NextIP a) (PreviousIP b) (List.range' 1 maskMax) with
    | some (i, ex) => .ok (mkNetV (NextIP a) i, ex)
    | none => .error .noValidRange

/-- Spec-side definition for claim C8, following the spec's words: a 4-byte
address is compared "as if prefixed with twelve zero bytes". -/
def specTo16TwelveZeros (ip : List Nat) : List Nat :=
  if ip.length = 4 then List.replicate 12 0 ++ ip else ip

/-- Spec-side comparison for claim C8 built from `specTo16TwelveZeros`. -/
def specCompareTwelveZeros (a b : List Nat) : Int :=
  bytesCompare (specTo16TwelveZeros a) (specTo16TwelveZeros b)

end Iplib

namespace Iplib

theorem bytesCompare_self (a : List Nat) : bytesCompare a a = 0 := by
  induction a with
  | nil => rfl
  | cons x xs ih => simp [bytesCompare, ih]

theorem bytesCompare_swap (a b : List Nat) : bytesCompare a b = -bytesCompare b a := by
  induction a generalizing b with
  | nil => cases b <;> rfl
  | cons x xs ih =>
    cases b with
    | nil => rfl
    | cons y ys =>
      by_cases hxy : x < y
      · have : ¬ y < x := Nat.lt_asymm hxy
        simp [bytesCompare, hxy, this]
      · by_cases hyx : y < x
        · simp [bytesCompare, hxy, hyx]
        · have hxy' : x = y := Nat.le_antisymm (Nat.le_of_not_lt hyx) (Nat.le_of_not_lt hxy)
          subst hxy'
          simp [bytesCompare, ih]

theorem bytesCompare_eq_zero_iff (a b : List Nat) : bytesCompare a b = 0 ↔ a = b := by
  induction a generalizing b with
  | nil => cases b <;> simp [bytesCompare]
  | cons x xs ih =>
    cases b with
    | nil => simp [bytesCompare]
    | cons y ys =>
      by_cases hxy : x < y
      · simp [bytesCompare, hxy]
        omega
      · by_cases hyx : y < x
        · simp [bytesCompare, hxy, hyx]
          omega
        · have hxy' : x = y := Nat.le_antisymm (Nat.le_of_not_lt hyx) (Nat.le_of_not_lt hxy)
          subst hxy'
          simp [bytesCompare, ih]

theorem bytesCompare_trichot (a b : List Nat) :
    bytesCompare a b = -1 ∨ bytesCompare a b = 0 ∨ bytesCompare a b = 1 := by
  induction a generalizing b with
  | nil => cases b <;> simp [bytesCompare]
  | cons x xs ih =>
    cases b with
    | nil => simp [bytesCompare]
    | cons y ys =>
      by_cases hxy : x < y
      · simp [bytesCompare, hxy]
      · by_cases hyx : y < x
        · simp [bytesCompare, hxy, hyx]
        · simp [bytesCompare, hxy, hyx, ih]

theorem ipVal_lt_of_validBytes {a : List Nat} (h : validBytes a) :
    ipVal a < 256 ^ a.length := by
  induction a with
  | nil => simp [ipVal]
  | cons x xs ih =>
    have hx : x < 256 := h x (List.mem_cons_self x xs)
    have hxs : validBytes xs := fun b hb => h b (List.mem_cons_of_mem x hb)
    have h1 : ipVal xs < 256 ^ xs.length := ih hxs
    have h2 : x * 256 ^ xs.length + ipVal xs < (x + 1) * 256 ^ xs.length := by
      calc x * 256 ^ xs.length + ipVal xs
          < x * 256 ^ xs.length + 256 ^ xs.length := by omega
        _ = (x + 1) * 256 ^ xs.length := by ring
    have h3 : (x + 1) * 256 ^ xs.length ≤ 256 * 256 ^ xs.length :=
      Nat.mul_le_mul_right _ (by omega)
    simp only [ipVal, List.length_cons]
    calc x * 256 ^ xs.length + ipVal xs
        < (x + 1) * 256 ^ xs.length := h2
      _ ≤ 256 * 256 ^ xs.length := h3
      _ = 256 ^ (xs.length + 1) := by ring

theorem bytesCompare_neg_iff_ipVal {a b : List Nat} (hl : a.length = b.length)
    (ha : validBytes a) (hb : validBytes b) :
    (bytesCompare a b = -1 ↔ ipVal a < ipVal b) := by
  induction a generalizing b with
  | nil =>
    cases b with
    | nil => simp [bytesCompare, ipVal]
    | cons y ys => simp at hl
  | cons x xs ih =>
    cases b with
    | nil => simp at hl
    | cons y ys =>
      have hl' : xs.length = ys.length := by simpa using hl
      have hxs : validBytes xs := fun c hc => ha c (List.mem_cons_of_mem x hc)
      have hys : validBytes ys := fun c hc => hb c (List.mem_cons_of_mem y hc)
      have hvx : ipVal xs < 256 ^ xs.length := ipVal_lt_of_validBytes hxs
      have hvy : ipVal ys < 256 ^ ys.length := ipVal_lt_of_validBytes hys
      simp only [ipVal, List.length_cons, hl']
      by_cases hxy : x < y
      · simp only [bytesCompare, if_pos hxy]
        constructor
        · intro _
          calc x * 256 ^ ys.length + ipVal xs
              < x * 256 ^ ys.length + 256 ^ ys.length := by rw [← hl']; omega
            _ = (x + 1) * 256 ^ ys.length := by ring
            _ ≤ y * 256 ^ ys.length := Nat.mul_le_mul_right _ (by omega)
            _ ≤ y * 256 ^ ys.length + ipVal ys := Nat.le_add_right _ _
        · intro _; trivial
      · by_cases hyx : y < x
        · simp only [bytesCompare, if_neg hxy, if_pos hyx]
          constructor
          · intro h1; exact absurd h1 (by decide)
          · intro hlt
            exfalso
            have : y * 256 ^ ys.length + ipVal ys < x * 256 ^ ys.length + ipVal xs := by
              calc y * 256 ^ ys.length + ipVal ys
                  < y * 256 ^ ys.length + 256 ^ ys.length := by omega
                _ = (y + 1) * 256 ^ ys.length := by ring
                _ ≤ x * 256 ^ ys.length := Nat.mul_le_mul_right _ (by omega)
                _ ≤ x * 256 ^ ys.length + ipVal xs := Nat.le_add_right _ _
            omega
        · have hxy' : x = y := Nat.le_antisymm (Nat.le_of_not_lt hyx) (Nat.le_of_not_lt hxy)
          subst hxy'
          simp only [bytesCompare, if_neg hxy, if_neg hyx]
          rw [ih hl' hxs hys]
          omega

theorem bytesCompare_append_left (p a b : List Nat) :
    bytesCompare (p ++ a) (p ++ b) = bytesCompare a b := by
  induction p with
  | nil => rfl
  | cons x xs ih => simp [bytesCompare, ih]

theorem to16_length {ip : List Nat} (h : ip.length = 4 ∨ ip.length = 16) :
    (to16 ip).length = 16 := by
  rcases h with h | h <;> simp [to16, h, v4InV6Prefix]

theorem to16_validBytes {ip : List Nat} (h : validBytes ip) : validBytes (to16 ip) := by
  unfold to16
  split
  · exact h
  · split
    · intro b hb
      rcases List.mem_append.mp hb with hb | hb
      · fin_cases hb <;> decide
      · exact h b hb
    · intro b hb; simp at hb

theorem ipVal_nil : ipVal [] = 0 := rfl

end Iplib

namespace Iplib

theorem goCopyPad_self {w : Nat} {ip : List Nat} (h : ip.length = w) :
    goCopyPad w ip = ip := by
  simp [goCopyPad, ← h, List.take_length]

theorem incBytesRev_length {l r : List Nat} (h : incBytesRev l = some r) :
    r.length = l.length := by
  induction l generalizing r with
  | nil => simp [incBytesRev] at h
  | cons b rest ih =>
    simp only [incBytesRev] at h
    split at h
    · cases h; simp
    · cases hrec : incBytesRev rest with
      | none => rw [hrec] at h; cases h
      | some r' =>
        rw [hrec] at h
        cases h
        simp [ih hrec]

theorem incBytesRev_validBytes {l r : List Nat} (hl : validBytes l)
    (h : incBytesRev l = some r) : validBytes r := by
  induction l generalizing r with
  | nil => simp [incBytesRev] at h
  | cons b rest ih =>
    have hrest : validBytes rest := fun c hc => hl c (List.mem_cons_of_mem b hc)
    simp only [incBytesRev] at h
    split at h
    · cases h
      intro c hc
      rcases List.mem_cons.mp hc with hc | hc
      · subst hc; exact Nat.mod_lt _ (by omega)
      · exact hrest c hc
    · cases hrec : incBytesRev rest with
      | none => rw [hrec] at h; cases h
      | some r' =>
        rw [hrec] at h
        cases h
        intro c hc
        rcases List.mem_cons.mp hc with hc | hc
        · subst hc; omega
        · exact ih hrest hrec c hc

theorem decBytesRev_length {l r : List Nat} (h : decBytesRev l = some r) :
    r.length = l.length := by
  induction l generalizing r with
  | nil => simp [decBytesRev] at h
  | cons b rest ih =>
    simp only [decBytesRev] at h
    split at h
    · cases h; simp
    · cases hrec : decBytesRev rest with
      | none => rw [hrec] at h; cases h
      | some r' =>
        rw [hrec] at h
        cases h
        simp [ih hrec]

theorem decBytesRev_validBytes {l r : List Nat} (hl : validBytes l)
    (h : decBytesRev l = some r) : validBytes r := by
  induction l generalizing r with
  | nil => simp [decBytesRev] at h
  | cons b rest ih =>
    have hrest : validBytes rest := fun c hc => hl c (List.mem_cons_of_mem b hc)
    simp only [decBytesRev] at h
    split at h
    · cases h
      intro c hc
      rcases List.mem_cons.mp hc with hc | hc
      · subst hc; exact Nat.mod_lt _ (by omega)
      · exact hrest c hc
    · cases hrec : decBytesRev rest with
      | none => rw [hrec] at h; cases h
      | some r' =>
        rw [hrec] at h
        cases h
        intro c hc
        rcases List.mem_cons.mp hc with hc | hc
        · subst hc; omega
        · exact ih hrest hrec c hc

theorem widthOf_eq_length {ip : List Nat} (h : ip.length = 4 ∨ ip.length = 16) :
    (if Version ip = 4 then 4 else 16) = ip.length := by
  rcases h with h | h <;> simp [Version, h]

theorem NextIP_carry {ip : List Nat} (h : ip.length = 4 ∨ ip.length = 16) :
    NextIP ip = match incBytesRev ip.reverse with
      | some r => r.reverse
      | none => ip := by
  unfold NextIP
  simp only [widthOf_eq_length h, goCopyPad_self rfl]

theorem PreviousIP_carry {ip : List Nat} (h : ip.length = 4 ∨ ip.length = 16) :
    PreviousIP ip = match decBytesRev ip.reverse with
      | some r => r.reverse
      | none => ip := by
  unfold PreviousIP
  simp only [widthOf_eq_length h, goCopyPad_self rfl]

theorem NextIP_length {ip : List Nat} (h : ip.length = 4 ∨ ip.length = 16) :
    (NextIP ip).length = ip.length := by
  rw [NextIP_carry h]
  cases hrec : incBytesRev ip.reverse with
  | none => rfl
  | some r =>
    have := incBytesRev_length hrec
    simp_all

theorem NextIP_validBytes {ip : List Nat} (h : ip.length = 4 ∨ ip.length = 16)
    (hv : validBytes ip) : validBytes (NextIP ip) := by
  rw [NextIP_carry h]
  cases hrec : incBytesRev ip.reverse with
  | none => exact hv
  | some r =>
    intro b hb
    exact incBytesRev_validBytes (fun c hc => hv c (List.mem_reverse.mp hc)) hrec b
      (List.mem_reverse.mp hb)

theorem PreviousIP_length {ip : List Nat} (h : ip.length = 4 ∨ ip.length = 16) :
    (PreviousIP ip).length = ip.length := by
  rw [PreviousIP_carry h]
  cases hrec : decBytesRev ip.reverse with
  | none => rfl
  | some r =>
    have := decBytesRev_length hrec
    simp_all

theorem PreviousIP_validBytes {ip : List Nat} (h : ip.length = 4 ∨ ip.length = 16)
    (hv : validBytes ip) : validBytes (PreviousIP ip) := by
  rw [PreviousIP_carry h]
  cases hrec : decBytesRev ip.reverse with
  | none => exact hv
  | some r =>
    intro b hb
    exact decBytesRev_validBytes (fun c hc => hv c (List.mem_reverse.mp hc)) hrec b
      (List.mem_reverse.mp hb)

theorem cidrMaskBytes_length {ones n : Nat} (h : ones ≤ 8 * n) :
    (cidrMaskBytes ones n).length = n := by
  simp [cidrMaskBytes, Nat.not_lt.mpr h]

theorem cidrMaskBytes_validBytes (ones n : Nat) : validBytes (cidrMaskBytes ones n) := by
  unfold cidrMaskBytes
  split
  · intro b hb; simp at hb
  · intro b hb
    simp only [List.mem_map] at hb
    obtain ⟨i, _, hi⟩ := hb
    have h1 : 2 ^ (8 - min 8 (ones - 8 * i)) ≥ 1 := Nat.one_le_two_pow
    omega

theorem maskIP_length {ip mask : List Nat} (h : ip.length = mask.length) :
    (maskIP ip mask).length = ip.length := by
  simp [maskIP, h]

theorem maskIP_validBytes {ip mask : List Nat} (hv : validBytes ip) :
    validBytes (maskIP ip mask) := by
  unfold maskIP
  split
  · intro b hb
    obtain ⟨i, hlt, hi⟩ := List.mem_iff_getElem.mp hb
    have hlen : i < ip.length := by
      simp only [List.length_zipWith] at hlt
      omega
    have hmask : i < mask.length := by
      simp only [List.length_zipWith] at hlt
      omega
    rw [List.getElem_zipWith] at hi
    have hmem : ip[i] ∈ ip := List.getElem_mem hlen
    have hle : b ≤ ip[i] := by
      rw [← hi]
      exact Nat.and_le_left
    exact Nat.lt_of_le_of_lt hle (hv _ hmem)
  · intro b hb; simp at hb

theorem addWildcard_length (ip mask : List Nat) :
    (addWildcard ip mask).length = min ip.length mask.length := by
  simp [addWildcard]

theorem addWildcard_validBytes (ip mask : List Nat) : validBytes (addWildcard ip mask) := by
  intro b hb
  obtain ⟨i, hlt, hi⟩ := List.mem_iff_getElem.mp hb
  unfold addWildcard at hi
  rw [List.getElem_zipWith] at hi
  rw [← hi]
  exact Nat.mod_lt _ (by omega)

theorem ipChain_ne_nil {s : List Nat} {k : Nat} (h : k ≠ 0) : ipChain s k ≠ [] := by
  cases k with
  | zero => omega
  | succ k => simp [ipChain]

end Iplib

namespace Iplib

theorem CompareIPs_self (a : List Nat) : CompareIPs a a = 0 := bytesCompare_self _

theorem CompareIPs_swap (a b : List Nat) : CompareIPs a b = -CompareIPs b a :=
  bytesCompare_swap _ _

theorem CompareIPs_trichot (a b : List Nat) :
    CompareIPs a b = -1 ∨ CompareIPs a b = 0 ∨ CompareIPs a b = 1 :=
  bytesCompare_trichot _ _

theorem to16_of_length4 {a : List Nat} (h : a.length = 4) :
    to16 a = v4InV6Prefix ++ a := by
  simp [to16, h]

theorem to16_of_length16 {a : List Nat} (h : a.length = 16) : to16 a = a := by
  simp [to16, h]

theorem to16_eq_iff {a b : List Nat} (hl : a.length = b.length)
    (h4 : a.length = 4 ∨ a.length = 16) : to16 a = to16 b ↔ a = b := by
  rcases h4 with h | h
  · have hb : b.length = 4 := by omega
    rw [to16_of_length4 h, to16_of_length4 hb]
    exact List.append_right_inj _
  · have hb : b.length = 16 := by omega
    rw [to16_of_length16 h, to16_of_length16 hb]

theorem CompareIPs_eq_zero_iff {a b : List Nat} (hl : a.length = b.length)
    (h4 : a.length = 4 ∨ a.length = 16) : CompareIPs a b = 0 ↔ a = b := by
  rw [CompareIPs, bytesCompare_eq_zero_iff, to16_eq_iff hl h4]

theorem CompareIPs_neg_iff {a b : List Nat} (hl : a.length = b.length)
    (h4 : a.length = 4 ∨ a.length = 16) (ha : validBytes a) (hb : validBytes b) :
    CompareIPs a b = -1 ↔ ipVal a < ipVal b := by
  rcases h4 with h | h
  · have hb4 : b.length = 4 := by omega
    rw [CompareIPs, to16_of_length4 h, to16_of_length4 hb4,
      bytesCompare_append_left]
    exact bytesCompare_neg_iff_ipVal hl ha hb
  · have hb16 : b.length = 16 := by omega
    rw [CompareIPs, to16_of_length16 h, to16_of_length16 hb16]
    exact bytesCompare_neg_iff_ipVal hl ha hb

theorem CompareIPs_nonneg_iff {a b : List Nat} (hl : a.length = b.length)
    (h4 : a.length = 4 ∨ a.length = 16) (ha : validBytes a) (hb : validBytes b) :
    0 ≤ CompareIPs a b ↔ ipVal b ≤ ipVal a := by
  have htri := CompareIPs_trichot a b
  have hneg := CompareIPs_neg_iff hl h4 ha hb
  constructor
  · intro h0
    by_contra hcon
    have : ipVal a < ipVal b := by omega
    have := hneg.mpr this
    omega
  · intro hble
    rcases htri with h | h | h
    · have := hneg.mp h
      omega
    · omega
    · omega

theorem CompareIPs_nonpos_iff {a b : List Nat} (hl : a.length = b.length)
    (h4 : a.length = 4 ∨ a.length = 16) (ha : validBytes a) (hb : validBytes b) :
    CompareIPs a b ≤ 0 ↔ ipVal a ≤ ipVal b := by
  have hswap := CompareIPs_swap a b
  have hl' : b.length = a.length := hl.symm
  have h4' : b.length = 4 ∨ b.length = 16 := by omega
  have := CompareIPs_nonneg_iff hl' h4' hb ha
  omega

end Iplib

namespace Iplib

theorem betweenScan_eq_none_iff (ipa ipb : List Nat) (l : List Nat) :
    betweenScan ipa ipb l = none ↔ ∀ i ∈ l, fitB ipa ipb i = false := by
  induction l with
  | nil => simp [betweenScan]
  | cons i rest ih =>
    by_cases hfit : fitB ipa ipb i = true
    · simp [betweenScan, hfit]
    · have hfalse : fitB ipa ipb i = false := Bool.eq_false_iff.mpr hfit
      simp [betweenScan, hfalse, ih]

theorem betweenScan_range'_spec {ipa ipb : List Nat} :
    ∀ (n s i : Nat) (ex : Bool),
      betweenScan ipa ipb (List.range' s n) = some (i, ex) →
      s ≤ i ∧ i < s + n ∧ fitB ipa ipb i = true ∧ ex = exactB ipa ipb i ∧
        ∀ j, s ≤ j → j < i → fitB ipa ipb j = false := by
  intro n
  induction n with
  | zero =>
    intro s i ex h
    simp [List.range', betweenScan] at h
  | succ n ih =>
    intro s i ex h
    rw [List.range'_succ] at h
    simp only [betweenScan] at h
    by_cases hfit : fitB ipa ipb s = true
    · rw [if_pos hfit] at h
      cases h
      refine ⟨Nat.le_refl s, by omega, hfit, rfl, ?_⟩
      intro j hj1 hj2
      omega
    · rw [if_neg hfit] at h
      obtain ⟨h1, h2, h3, h4, h5⟩ := ih (s + 1) i ex h
      refine ⟨by omega, by omega, h3, h4, ?_⟩
      intro j hj1 hj2
      by_cases hjs : j = s
      · subst hjs
        exact Bool.eq_false_iff.mpr hfit
      · exact h5 j (by omega) hj2

theorem netBetweenCand_fst_length {ipa : List Nat} {i : Nat} (hi : i ≤ 8 * ipa.length) :
    (netBetweenCand ipa i).1.length = ipa.length := by
  unfold netBetweenCand
  exact maskIP_length (by rw [cidrMaskBytes_length hi])

theorem netBetweenCand_snd_length {ipa : List Nat} {i : Nat} (hi : i ≤ 8 * ipa.length) :
    (netBetweenCand ipa i).2.length = ipa.length := by
  unfold netBetweenCand
  simp only [addWildcard_length]
  rw [maskIP_length (by rw [cidrMaskBytes_length hi]), cidrMaskBytes_length hi]
  omega

theorem netBetweenCand_fst_validBytes {ipa : List Nat} (i : Nat) (hv : validBytes ipa) :
    validBytes (netBetweenCand ipa i).1 := maskIP_validBytes hv

theorem netBetweenCand_snd_validBytes (ipa : List Nat) (i : Nat) :
    validBytes (netBetweenCand ipa i).2 := addWildcard_validBytes _ _

theorem fitB_iff_val {ipa ipb : List Nat} {i : Nat} (hl : ipa.length = ipb.length)
    (h4 : ipa.length = 4 ∨ ipa.length = 16) (hva : validBytes ipa) (hvb : validBytes ipb)
    (hi : i ≤ 8 * ipa.length) :
    fitB ipa ipb i = true ↔
      ipVal ipa ≤ ipVal (netBetweenCand ipa i).1 ∧
        ipVal (netBetweenCand ipa i).2 ≤ ipVal ipb := by
  have hc1l := netBetweenCand_fst_length hi
  have hc2l := netBetweenCand_snd_length hi
  have hc1v := @netBetweenCand_fst_validBytes ipa i hva
  have hc2v := netBetweenCand_snd_validBytes ipa i
  unfold fitB
  rw [Bool.and_eq_true, decide_eq_true_iff, decide_eq_true_iff,
    CompareIPs_nonneg_iff hc1l (by omega) hc1v hva,
    CompareIPs_nonpos_iff (by omega) (by omega) hc2v hvb]

theorem exactB_iff {ipa ipb : List Nat} {i : Nat} (hl : ipa.length = ipb.length)
    (h4 : ipa.length = 4 ∨ ipa.length = 16) (hi : i ≤ 8 * ipa.length) :
    exactB ipa ipb i = true ↔
      (netBetweenCand ipa i).1 = ipa ∧ (netBetweenCand ipa i).2 = ipb := by
  have hc1l := netBetweenCand_fst_length hi
  have hc2l := netBetweenCand_snd_length hi
  unfold exactB
  rw [Bool.and_eq_true, decide_eq_true_iff, decide_eq_true_iff,
    CompareIPs_eq_zero_iff hc1l (by omega),
    CompareIPs_eq_zero_iff (by omega) (by omega)]

end Iplib

namespace Iplib

theorem version_eq_of_family {a b : List Nat}
    (hfam : (a.length = 4 ∧ b.length = 4) ∨
      (a.length = 16 ∧ b.length = 16 ∧ is6to4 a = false)) :
    Version a = Version b := by
  rcases hfam with ⟨h1, h2⟩ | ⟨h1, h2, _⟩ <;> simp [Version, h1, h2]

theorem maskMax_eq_of_family {a b : List Nat}
    (hfam : (a.length = 4 ∧ b.length = 4) ∨
      (a.length = 16 ∧ b.length = 16 ∧ is6to4 a = false)) :
    (if EffectiveVersion a = 4 then 32 else 128) = 8 * a.length := by
  rcases hfam with ⟨h1, _⟩ | ⟨h1, _, h3⟩
  · simp [EffectiveVersion, h1]
  · simp [EffectiveVersion, h1, h3]

end Iplib

namespace Iplib

/-- C1: with matching versions and `a < b`, `NewNetBetween` scans prefix
lengths from 1 up to the family's bit width and returns the first (hence
widest) candidate block anchored at `NextIP a` that lies entirely within
`[NextIP a, PreviousIP b]`, with the exact flag true precisely when the
block's first address is `NextIP a` and its last address is `PreviousIP b`;
it returns ErrNoValidRange when `a >= b`, when the versions differ, and
when no prefix length fits.  In particular
`NewNetBetween(192.168.0.255, 192.168.2.0)` is `192.168.1.0/24`, exact.
The family hypothesis excludes an IPv4-mapped 16-byte `a` (see the
counterexample theorem: there the scan is cut off at 32 and the claim
fails). -/
theorem iplib_C1 :
    (∀ a b : List Nat, CompareIPs a b ≠ -1 →
      NewNetBetween a b = .error .noValidRange)
    ∧ (∀ a b : List Nat, Version a ≠ Version b →
      NewNetBetween a b = .error .noValidRange)
    ∧ (∀ a b : List Nat,
      (a.length = 4 ∧ b.length = 4) ∨
        (a.length = 16 ∧ b.length = 16 ∧ is6to4 a = false) →
      validBytes a → validBytes b → CompareIPs a b = -1 →
      ((∀ nv ex, NewNetBetween a b = .ok (nv, ex) →
        ∃ i, 1 ≤ i ∧ i ≤ 8 * a.length ∧
          nv = mkNetV (NextIP a) i ∧
          (a.length = 4 →
            nv = .v4 ⟨(netBetweenCand (NextIP a) i).1, i, 4⟩) ∧
          (a.length = 16 →
            nv = .v6 ⟨(netBetweenCand (NextIP a) i).1, i, 8, 6⟩) ∧
          fitB (NextIP a) (PreviousIP b) i = true ∧
          (∀ j, 1 ≤ j → j < i → fitB (NextIP a) (PreviousIP b) j = false) ∧
          ipVal (NextIP a) ≤ ipVal (netBetweenCand (NextIP a) i).1 ∧
          ipVal (netBetweenCand (NextIP a) i).2 ≤ ipVal (PreviousIP b) ∧
          (ex = true ↔ ((netBetweenCand (NextIP a) i).1 = NextIP a ∧
            (netBetweenCand (NextIP a) i).2 = PreviousIP b)))
      ∧ (NewNetBetween a b = .error .noValidRange ↔
          ∀ i, 1 ≤ i → i ≤ 8 * a.length →
            fitB (NextIP a) (PreviousIP b) i = false)))
    ∧ NewNetBetween [192, 168, 0, 255] [192, 168, 2, 0] =
        .ok (.v4 ⟨[192, 168, 1, 0], 24, 4⟩, true) := by
  refine ⟨?_, ?_, ?_, by rfl⟩
  · intro a b h
    unfold NewNetBetween
    rw [if_pos h]
  · intro a b h
    unfold NewNetBetween
    by_cases hcmp : CompareIPs a b ≠ -1
    · rw [if_pos hcmp]
    · rw [if_neg hcmp, if_pos h]
  · intro a b hfam hva hvb hcmp
    have hlen4 : a.length = 4 ∨ a.length = 16 := by
      rcases hfam with ⟨h1, _⟩ | ⟨h1, _, _⟩ <;> omega
    have hlenab : a.length = b.length := by
      rcases hfam with ⟨h1, h2⟩ | ⟨h1, h2, _⟩ <;> omega
    have hnextl : (NextIP a).length = a.length := NextIP_length hlen4
    have hprevl : (PreviousIP b).length = b.length := PreviousIP_length (by omega)
    have hnextv : validBytes (NextIP a) := NextIP_validBytes hlen4 hva
    have hprevv : validBytes (PreviousIP b) := PreviousIP_validBytes (by omega) hvb
    have hne : ¬ (CompareIPs a b ≠ -1) := fun hk => hk hcmp
    have hver : ¬ (Version a ≠ Version b) := fun hk => hk (version_eq_of_family hfam)
    have hunfold : NewNetBetween a b =
        match betweenScan (NextIP a) (PreviousIP b) (List.range' 1 (8 * a.length)) with
        | some (i, ex) => .ok (mkNetV (NextIP a) i, ex)
        | none => .error .noValidRange := by
      unfold NewNetBetween
      rw [if_neg hne, if_neg hver, maskMax_eq_of_family hfam]
    constructor
    · intro nv ex hok
      rw [hunfold] at hok
      cases hscan : betweenScan (NextIP a) (PreviousIP b)
          (List.range' 1 (8 * a.length)) with
      | none => rw [hscan] at hok; cases hok
      | some pair =>
        obtain ⟨i, ex'⟩ := pair
        rw [hscan] at hok
        have hnv : mkNetV (NextIP a) i = nv ∧ ex' = ex := by
          have := hok
          simp only [Except.ok.injEq, Prod.mk.injEq] at this
          exact this
        obtain ⟨h1, h2, h3, h4, h5⟩ := betweenScan_range'_spec (8 * a.length) 1 i ex' hscan
        have hile : i ≤ 8 * a.length := by omega
        have hile' : i ≤ 8 * (NextIP a).length := by omega
        have hlab : (NextIP a).length = (PreviousIP b).length := by omega
        have hfit := h3
        have hval := (fitB_iff_val hlab (by omega) hnextv hprevv hile').mp hfit
        refine ⟨i, h1, hile, hnv.1.symm, ?_, ?_, hfit, ?_, hval.1, hval.2, ?_⟩
        · intro hl4
          rw [← hnv.1]
          unfold mkNetV netBetweenCand
          have : Version (NextIP a) = 4 := by simp [Version, hnextl, hl4]
          rw [this]
          simp [hnextl, hl4]
        · intro hl16
          rw [← hnv.1]
          unfold mkNetV netBetweenCand
          have : Version (NextIP a) = 6 := by simp [Version, hnextl, hl16]
          rw [this]
          simp [hnextl, hl16]
        · intro j hj1 hj2
          exact h5 j hj1 hj2
        · rw [← hnv.2, h4]
          exact exactB_iff hlab (by omega) hile'
    · rw [hunfold]
      cases hscan : betweenScan (NextIP a) (PreviousIP b)
          (List.range' 1 (8 * a.length)) with
      | none =>
        simp only [true_iff]
        have := (betweenScan_eq_none_iff _ _ _).mp hscan
        intro i hi1 hi2
        exact this i (List.mem_range'_1.mpr ⟨hi1, by omega⟩)
      | some pair =>
        obtain ⟨i, ex'⟩ := pair
        simp only [reduceCtorEq, false_iff]
        intro hall
        obtain ⟨h1, h2, h3, _, _⟩ := betweenScan_range'_spec (8 * a.length) 1 i ex' hscan
        have := hall i h1 (by omega)
        rw [h3] at this
        cases this

end Iplib

namespace Iplib

theorem IP4ToUint32_of_len4 {ip : List Nat} (h : ip.length = 4) :
    IP4ToUint32 ip = ipVal ip := by
  simp [IP4ToUint32, EffectiveVersion, ForceIP4, h]

theorem ipVal_lt_len4 {ip : List Nat} (h : ip.length = 4) (hv : validBytes ip) :
    ipVal ip < 2 ^ 32 := by
  have := ipVal_lt_of_validBytes hv
  rw [h] at this
  calc ipVal ip < 256 ^ 4 := this
    _ = 2 ^ 32 := by norm_num

end Iplib

namespace Iplib

/-- C2 (amended): every increment/decrement entry point saturates at the
family boundary: NextIP is a fixpoint on the all-ones address and
PreviousIP on the all-zeros address of both families;
IncrementIP4By/IncrementIPBy clamp to 255.255.255.255 on uint32 overflow;
IncrementIP6By/IncrementIPBy clamp to the 16-byte all-ones address when
the 128-bit value overflows; DecrementIP4By/DecrementIPBy clamp to 0.0.0.0
on uint32 underflow; DecrementIP6By clamps to the 16-byte all-zeros
address on underflow PROVIDED the underflow magnitude stays below 2^128
(the amendment: for counts at least 2^128 beyond the address value the
function returns all-ones instead, because big.Int.Bytes reports the
absolute value - see the counterexample); DecrementIPBy, whose count is a
uint32, always clamps to all-zeros on underflow. -/
theorem iplib_C2 :
    (NextIP (List.replicate 4 255) = List.replicate 4 255
      ∧ NextIP (List.replicate 16 255) = List.replicate 16 255
      ∧ PreviousIP (List.replicate 4 0) = List.replicate 4 0
      ∧ PreviousIP (List.replicate 16 0) = List.replicate 16 0)
    ∧ (∀ (ip : List Nat) (count : Nat), ip.length = 4 → validBytes ip →
        count < 2 ^ 32 → 2 ^ 32 ≤ IP4ToUint32 ip + count →
        IncrementIP4By ip count = List.replicate 4 255
          ∧ IncrementIPBy ip count = List.replicate 4 255)
    ∧ (∀ (ip : List Nat) (count : Int), ip.length = 16 →
        2 ^ 128 ≤ IPToBigint ip + count →
        IncrementIP6By ip count = List.replicate 16 255)
    ∧ (∀ (ip : List Nat) (count : Nat), ip.length = 16 →
        2 ^ 128 ≤ IPToBigint ip + (count : Int) →
        IncrementIPBy ip count = List.replicate 16 255)
    ∧ (∀ (ip : List Nat) (count : Nat), ip.length = 4 → validBytes ip →
        count < 2 ^ 32 → IP4ToUint32 ip < count →
        DecrementIP4By ip count = List.replicate 4 0
          ∧ DecrementIPBy ip count = List.replicate 4 0)
    ∧ (∀ (ip : List Nat) (count : Int), ip.length = 16 →
        IPToBigint ip < count → count - IPToBigint ip < 2 ^ 128 →
        DecrementIP6By ip count = List.replicate 16 0)
    ∧ (∀ (ip : List Nat) (count : Nat), ip.length = 16 → is6to4 ip = false →
        count < 2 ^ 32 → IPToBigint ip < (count : Int) →
        DecrementIPBy ip count = List.replicate 16 0) := by
  have hinc6 : ∀ (ip : List Nat) (count : Int),
      2 ^ 128 ≤ IPToBigint ip + count →
      IncrementIP6By ip count = List.replicate 16 255 := by
    intro ip count hov
    unfold IncrementIP6By BigintToIP6
    rw [if_pos (by omega)]
  have hdec6 : ∀ (ip : List Nat) (count : Int),
      IPToBigint ip < count → count - IPToBigint ip < 2 ^ 128 →
      DecrementIP6By ip count = List.replicate 16 0 := by
    intro ip count hun hmag
    unfold DecrementIP6By BigintToIP6
    have h0 : (0 : Int) ≤ IPToBigint ip := Int.natCast_nonneg _
    rw [if_neg (by omega), if_pos (by omega)]
  have hinc4 : ∀ (ip : List Nat) (count : Nat), ip.length = 4 → validBytes ip →
      count < 2 ^ 32 → 2 ^ 32 ≤ IP4ToUint32 ip + count →
      IncrementIP4By ip count = List.replicate 4 255 := by
    intro ip count hl hv hcnt hov
    have hival : IP4ToUint32 ip = ipVal ip := IP4ToUint32_of_len4 hl
    have hibnd : ipVal ip < 2 ^ 32 := ipVal_lt_len4 hl hv
    simp only [IncrementIP4By]
    have hmod : (IP4ToUint32 ip + count) % 2 ^ 32 =
        IP4ToUint32 ip + count - 2 ^ 32 := by
      rw [Nat.mod_eq_sub_mod hov, Nat.mod_eq_of_lt (by omega)]
    rw [hmod, if_pos (by omega)]
    rfl
  have hdec4 : ∀ (ip : List Nat) (count : Nat), ip.length = 4 → validBytes ip →
      count < 2 ^ 32 → IP4ToUint32 ip < count →
      DecrementIP4By ip count = List.replicate 4 0 := by
    intro ip count hl hv hcnt hun
    have hival : IP4ToUint32 ip = ipVal ip := IP4ToUint32_of_len4 hl
    have hibnd : ipVal ip < 2 ^ 32 := ipVal_lt_len4 hl hv
    simp only [DecrementIP4By]
    have hmodc : count % 2 ^ 32 = count := Nat.mod_eq_of_lt hcnt
    have hmod : (IP4ToUint32 ip + 2 ^ 32 - count % 2 ^ 32) % 2 ^ 32 =
        IP4ToUint32 ip + 2 ^ 32 - count := by
      rw [hmodc, Nat.mod_eq_of_lt (by omega)]
    rw [hmod, if_pos (by omega)]
    rfl
  refine ⟨⟨by decide, by decide, by decide, by decide⟩, ?_,
    fun ip count _ hov => hinc6 ip count hov, ?_, ?_,
    fun ip count _ h1 h2 => hdec6 ip count h1 h2, ?_⟩
  · intro ip count hl hv hcnt hov
    refine ⟨hinc4 ip count hl hv hcnt hov, ?_⟩
    have hver : Version ip = 4 := by simp [Version, hl]
    unfold IncrementIPBy
    rw [if_pos hver]
    exact hinc4 ip count hl hv hcnt hov
  · intro ip count hl hov
    have hver : ¬ Version ip = 4 := by simp [Version, hl]
    unfold IncrementIPBy
    rw [if_neg hver]
    exact hinc6 ip (count : Int) hov
  · intro ip count hl hv hcnt hun
    refine ⟨hdec4 ip count hl hv hcnt hun, ?_⟩
    have heff : EffectiveVersion ip = 4 := by simp [EffectiveVersion, hl]
    unfold DecrementIPBy
    rw [if_pos heff]
    exact hdec4 ip count hl hv hcnt hun
  · intro ip count hl hmap hcnt hun
    have heff : ¬ EffectiveVersion ip = 4 := by simp [EffectiveVersion, hl, hmap]
    unfold DecrementIPBy
    rw [if_neg heff]
    have h0 : (0 : Int) ≤ IPToBigint ip := Int.natCast_nonneg _
    exact hdec6 ip (count : Int) hun (by omega)

/-- C2 counterexample: the claim as stated (DecrementIP6By clamps to
all-zeros on EVERY underflow) is false: subtracting 2^128 from the
all-zeros address underflows but returns the all-ONES address, because
big.Int.Bytes reports the bytes of the absolute value and the length
check fires before the sign check. -/
theorem iplib_C2_counterexample :
    IPToBigint (List.replicate 16 0) < 340282366920938463463374607431768211456 ∧
    DecrementIP6By (List.replicate 16 0) 340282366920938463463374607431768211456 =
      List.replicate 16 255 := by
  constructor
  · decide
  · rfl

/-- C2 witness: the amended theorem applied at concrete saturating
inputs. -/
theorem iplib_C2_witness :
    (IncrementIP4By [255, 255, 255, 250] 10 = List.replicate 4 255
      ∧ IncrementIPBy [255, 255, 255, 250] 10 = List.replicate 4 255)
    ∧ IncrementIP6By (List.replicate 16 255) 1 = List.replicate 16 255
    ∧ (DecrementIP4By [0, 0, 0, 3] 5 = List.replicate 4 0
      ∧ DecrementIPBy [0, 0, 0, 3] 5 = List.replicate 4 0)
    ∧ DecrementIP6By [0, 0, 0, 0, 0, 0, 0, 0, 0, 0, 0, 0, 0, 0, 0, 1] 7 =
        List.replicate 16 0
    ∧ DecrementIPBy [0, 0, 0, 0, 0, 0, 0, 0, 0, 0, 0, 0, 0, 0, 0, 1] 7 =
        List.replicate 16 0 :=
  ⟨iplib_C2.2.1 [255, 255, 255, 250] 10 rfl (by decide) (by decide) (by decide),
   iplib_C2.2.2.1 (List.replicate 16 255) 1 (by decide)
     (by norm_num [IPToBigint, ipVal, List.replicate]),
   iplib_C2.2.2.2.2.1 [0, 0, 0, 3] 5 rfl (by decide) (by decide) (by decide),
   iplib_C2.2.2.2.2.2.1 [0, 0, 0, 0, 0, 0, 0, 0, 0, 0, 0, 0, 0, 0, 0, 1] 7 rfl
     (by decide)
     (by
       have h : IPToBigint [0, 0, 0, 0, 0, 0, 0, 0, 0, 0, 0, 0, 0, 0, 0, 1] = 1 := by
         decide
       rw [h]
       norm_num),
   iplib_C2.2.2.2.2.2.2 [0, 0, 0, 0, 0, 0, 0, 0, 0, 0, 0, 0, 0, 0, 0, 1] 7 rfl
     (by decide) (by decide) (by decide)⟩

end Iplib

namespace Iplib

/-- C1 witness: the main theorem instantiated at the adjacent pair
10.0.0.0 / 10.0.0.1, giving the no-fit characterization of the failure. -/
theorem iplib_C1_witness :
    NewNetBetween [10, 0, 0, 0] [10, 0, 0, 1] = .error .noValidRange ↔
      (∀ i, 1 ≤ i → i ≤ 8 * ([10, 0, 0, 0] : List Nat).length →
        fitB (NextIP [10, 0, 0, 0]) (PreviousIP [10, 0, 0, 1]) i = false) :=
  (iplib_C1.2.2.1 [10, 0, 0, 0] [10, 0, 0, 1] (Or.inl ⟨rfl, rfl⟩)
    (by decide) (by decide) (by decide)).2

/-- C1 counterexample: for an IPv4-mapped 16-byte `a` the claim as stated
fails: both addresses are nominal version 6 and `a < b`, yet NewNetBetween
reports ErrNoValidRange even though prefix length 120 fits entirely inside
the range (the loop is cut off at 32 because EffectiveVersion(a) = 4). -/
theorem iplib_C1_counterexample :
    CompareIPs [0, 0, 0, 0, 0, 0, 0, 0, 0, 0, 255, 255, 192, 168, 0, 255]
        [0, 0, 0, 0, 0, 0, 0, 0, 0, 0, 255, 255, 192, 168, 2, 0] = -1 ∧
    Version [0, 0, 0, 0, 0, 0, 0, 0, 0, 0, 255, 255, 192, 168, 0, 255] =
      Version [0, 0, 0, 0, 0, 0, 0, 0, 0, 0, 255, 255, 192, 168, 2, 0] ∧
    NewNetBetween [0, 0, 0, 0, 0, 0, 0, 0, 0, 0, 255, 255, 192, 168, 0, 255]
        [0, 0, 0, 0, 0, 0, 0, 0, 0, 0, 255, 255, 192, 168, 2, 0] =
      .error .noValidRange ∧
    fitB (NextIP [0, 0, 0, 0, 0, 0, 0, 0, 0, 0, 255, 255, 192, 168, 0, 255])
      (PreviousIP [0, 0, 0, 0, 0, 0, 0, 0, 0, 0, 255, 255, 192, 168, 2, 0])
      120 = true := by
  refine ⟨by decide, by decide, by rfl, by decide⟩

end Iplib

namespace Iplib

/-- C3: every family-A /31 netblock has Count() = 0 yet Enumerate(0,0)
returns exactly the two addresses of the pair, network address first,
followed by its successor (which is the block's broadcast address); a /32
has Count() = 1 and enumerates to the single address. -/
theorem iplib_C3 :
    ∀ ip : List Nat, ip.length = 4 → validBytes ip →
      NewNet4 ip 31 = .ok ⟨maskIP ip (cidrMaskBytes 31 4), 31, 4⟩ ∧
      Net4.Count ⟨maskIP ip (cidrMaskBytes 31 4), 31, 4⟩ = 0 ∧
      Net4.Enumerate ⟨maskIP ip (cidrMaskBytes 31 4), 31, 4⟩ 0 0 =
        some [maskIP ip (cidrMaskBytes 31 4),
          NextIP (maskIP ip (cidrMaskBytes 31 4))] ∧
      NextIP (maskIP ip (cidrMaskBytes 31 4)) =
        Net4.BroadcastAddress ⟨maskIP ip (cidrMaskBytes 31 4), 31, 4⟩ ∧
      NewNet4 ip 32 = .ok ⟨maskIP ip (cidrMaskBytes 32 4), 32, 4⟩ ∧
      Net4.Count ⟨maskIP ip (cidrMaskBytes 32 4), 32, 4⟩ = 1 ∧
      Net4.Enumerate ⟨maskIP ip (cidrMaskBytes 32 4), 32, 4⟩ 0 0 =
        some [maskIP ip (cidrMaskBytes 32 4)] := by
  intro ip hl hv
  rcases ip with _ | ⟨b0, ip⟩
  · simp at hl
  rcases ip with _ | ⟨b1, ip⟩
  · simp at hl
  rcases ip with _ | ⟨b2, ip⟩
  · simp at hl
  rcases ip with _ | ⟨b3, ip⟩
  · simp at hl
  rcases ip with _ | ⟨b4, ip⟩
  swap
  · simp at hl
  have h0 : b0 < 256 := hv _ (by simp)
  have h1 : b1 < 256 := hv _ (by simp)
  have h2 : b2 < 256 := hv _ (by simp)
  have h3 : b3 < 256 := hv _ (by simp)
  have hm31 : cidrMaskBytes 31 4 = [255, 255, 255, 254] := by decide
  have hmask31 : maskIP [b0, b1, b2, b3] [255, 255, 255, 254] =
      [Nat.land b0 255, Nat.land b1 255, Nat.land b2 255, Nat.land b3 254] := rfl
  have hy0 : Nat.land b0 255 < 256 := Nat.lt_of_le_of_lt Nat.and_le_left h0
  have hy1 : Nat.land b1 255 < 256 := Nat.lt_of_le_of_lt Nat.and_le_left h1
  have hy2 : Nat.land b2 255 < 256 := Nat.lt_of_le_of_lt Nat.and_le_left h2
  have hx3 : Nat.land b3 254 ≤ 254 := Nat.and_le_right
  have hmod3 : (Nat.land b3 254 + 1) % 256 = Nat.land b3 254 + 1 :=
    Nat.mod_eq_of_lt (by omega)
  have hlen4 : ([Nat.land b0 255, Nat.land b1 255, Nat.land b2 255,
      Nat.land b3 254] : List Nat).length = 4 := rfl
  have hnext : NextIP (maskIP [b0, b1, b2, b3] (cidrMaskBytes 31 4)) =
      [Nat.land b0 255, Nat.land b1 255, Nat.land b2 255, Nat.land b3 254 + 1] := by
    rw [hm31, hmask31, NextIP_carry (Or.inl hlen4)]
    simp [incBytesRev, hmod3]
  have e0 : Nat.land b0 255 % 256 = Nat.land b0 255 := Nat.mod_eq_of_lt hy0
  have e1 : Nat.land b1 255 % 256 = Nat.land b1 255 := Nat.mod_eq_of_lt hy1
  have e2 : Nat.land b2 255 % 256 = Nat.land b2 255 := Nat.mod_eq_of_lt hy2
  have hbc : Net4.BroadcastAddress
      ⟨maskIP [b0, b1, b2, b3] (cidrMaskBytes 31 4), 31, 4⟩ =
      [Nat.land b0 255, Nat.land b1 255, Nat.land b2 255, Nat.land b3 254 + 1] := by
    simp [Net4.BroadcastAddress, Net4.mask, hm31, hmask31, addWildcard,
      e0, e1, e2, hmod3]
  refine ⟨rfl, rfl, ?_, hnext.trans hbc.symm, rfl, rfl, rfl⟩
  have henum : Net4.Enumerate
      ⟨maskIP [b0, b1, b2, b3] (cidrMaskBytes 31 4), 31, 4⟩ 0 0 =
      some [maskIP [b0, b1, b2, b3] (cidrMaskBytes 31 4),
        Net4.BroadcastAddress
          ⟨maskIP [b0, b1, b2, b3] (cidrMaskBytes 31 4), 31, 4⟩] := rfl
  rw [henum, hbc, hnext]

/-- C3 witness: the theorem at 192.168.1.0, where the /31 pair is
192.168.1.0 and 192.168.1.1. -/
theorem iplib_C3_witness :
    NewNet4 [192, 168, 1, 0] 31 = .ok ⟨[192, 168, 1, 0], 31, 4⟩ ∧
    Net4.Count ⟨[192, 168, 1, 0], 31, 4⟩ = 0 ∧
    Net4.Enumerate ⟨[192, 168, 1, 0], 31, 4⟩ 0 0 =
      some [[192, 168, 1, 0], [192, 168, 1, 1]] ∧
    NextIP [192, 168, 1, 0] = Net4.BroadcastAddress ⟨[192, 168, 1, 0], 31, 4⟩ ∧
    NewNet4 [192, 168, 1, 0] 32 = .ok ⟨[192, 168, 1, 0], 32, 4⟩ ∧
    Net4.Count ⟨[192, 168, 1, 0], 32, 4⟩ = 1 ∧
    Net4.Enumerate ⟨[192, 168, 1, 0], 32, 4⟩ 0 0 = some [[192, 168, 1, 0]] :=
  iplib_C3 [192, 168, 1, 0] rfl (by decide)

end Iplib

namespace Iplib

/-- C4: code_bug evidence.  The claim (backed by the package documentation
and by TestNet6_Count, which expects count "2" for a /127) says a /127
Net6 has Count() = 2; the code's `exp == 1` branch returns 0 instead.
The /128 half of the claim does hold: Count() = 1. -/
theorem iplib_C4 :
    Net6.Count ⟨[32, 1, 13, 184, 0, 0, 0, 17, 0, 0, 0, 0, 0, 0, 0, 0], 127, 8, 6⟩ = 0 ∧
    Net6.Count ⟨[32, 1, 13, 184, 0, 0, 0, 17, 0, 0, 0, 0, 0, 0, 0, 0], 128, 8, 6⟩ = 1 := by
  exact ⟨rfl, rfl⟩

theorem getD_append_ge {l1 l2 : List Nat} :
    ∀ {i : Nat}, l1.length ≤ i → ∀ d, (l1 ++ l2).getD i d = l2.getD (i - l1.length) d := by
  induction l1 with
  | nil => intro i _ d; simp
  | cons x xs ih =>
    intro i hle d
    cases i with
    | zero => simp at hle
    | succ i =>
      have : xs.length ≤ i := by simpa using hle
      simp only [List.cons_append, List.getD_cons_succ, List.length_cons]
      rw [ih this d]
      congr 1
      omega

theorem getD_replicate_zero (k : Nat) : ∀ j, (List.replicate k (0 : Nat)).getD j 0 = 0 := by
  induction k with
  | zero => intro j; simp [List.getD]
  | succ k ih =>
    intro j
    cases j with
    | zero => simp [List.replicate]
    | succ j => simp only [List.replicate, List.getD_cons_succ]; exact ih j

theorem nextIPWithNetworkBytes_hostBytes (n : Net6) (ip : List Nat)
    (hk : n.netbytes ≤ 16) (hip : ip.length = 16) :
    n.nextIPWithNetworkBytes ip = ip ∨
      ∀ i, n.netbytes ≤ i → (n.nextIPWithNetworkBytes ip).getD i 0 = 0 := by
  unfold Net6.nextIPWithNetworkBytes
  cases hrec : incBytesRev (ip.take n.netbytes).reverse with
  | none => left; rfl
  | some r =>
    right
    intro i hi
    have hrl : r.length = n.netbytes := by
      have := incBytesRev_length hrec
      simp only [List.length_reverse, List.length_take, hip] at this
      omega
    have hrevl : r.reverse.length = n.netbytes := by simp [hrl]
    rw [getD_append_ge (by omega) 0]
    exact getD_replicate_zero _ _

theorem previousIPWithNetworkBytes_hostBytes (n : Net6) (ip : List Nat)
    (hk : n.netbytes ≤ 16) (hip : ip.length = 16) :
    n.previousIPWithNetworkBytes ip = ip ∨
      ∀ i, n.netbytes ≤ i → (n.previousIPWithNetworkBytes ip).getD i 0 = 0 := by
  unfold Net6.previousIPWithNetworkBytes
  cases hrec : decBytesRev (ip.take n.netbytes).reverse with
  | none => left; rfl
  | some r =>
    right
    intro i hi
    have hrl : r.length = n.netbytes := by
      have := decBytesRev_length hrec
      simp only [List.length_reverse, List.length_take, hip] at this
      omega
    have hrevl : r.reverse.length = n.netbytes := by simp [hrl]
    rw [getD_append_ge (by omega) 0]
    exact getD_replicate_zero _ _

/-- C5 (amended): a successful Net6 NextIP/PreviousIP step does NOT
preserve the host-side bytes of the input; the stepped address is built in
a fresh zeroed 16-byte slice, so every byte from the network-byte boundary
onward is zero (the host bytes agree with the input only when the input's
host bytes are zero), except in the saturating case where the input is
returned unchanged. -/
theorem iplib_C5 :
    ∀ (n : Net6) (ip : List Nat), n.netbytes ≤ 16 → ip.length = 16 →
      (∀ xip, n.nextIPIn ip = .ok xip →
        xip = ip ∨ ∀ i, n.netbytes ≤ i → xip.getD i 0 = 0) ∧
      (∀ xip, n.previousIPIn ip = .ok xip →
        xip = ip ∨ ∀ i, n.netbytes ≤ i → xip.getD i 0 = 0) := by
  intro n ip hk hip
  constructor
  · intro xip hok
    simp only [Net6.nextIPIn] at hok
    split at hok
    · cases hok
    · have hx : xip = n.nextIPWithNetworkBytes ip := by
        cases hok
        rfl
      rw [hx]
      exact nextIPWithNetworkBytes_hostBytes n ip hk hip
  · intro xip hok
    simp only [Net6.previousIPIn] at hok
    split at hok
    · cases hok
    · have hx : xip = n.previousIPWithNetworkBytes ip := by
        cases hok
        rfl
      rw [hx]
      exact previousIPWithNetworkBytes_hostBytes n ip hk hip

/-- C5 counterexample: stepping 2001:db8::1 inside 2001:db8::/56 with an
8-byte network boundary succeeds and yields 2001:db8:0:1::, whose byte 15
is 0 while the input's byte 15 is 1 - the claim that the result agrees
with the input on bytes k..15 is false. -/
theorem iplib_C5_counterexample :
    Net6.Contains ⟨[32, 1, 13, 184, 0, 0, 0, 0, 0, 0, 0, 0, 0, 0, 0, 0], 56, 8, 6⟩
      [32, 1, 13, 184, 0, 0, 0, 0, 0, 0, 0, 0, 0, 0, 0, 1] = true ∧
    Net6.nextIPIn ⟨[32, 1, 13, 184, 0, 0, 0, 0, 0, 0, 0, 0, 0, 0, 0, 0], 56, 8, 6⟩
        [32, 1, 13, 184, 0, 0, 0, 0, 0, 0, 0, 0, 0, 0, 0, 1] =
      .ok [32, 1, 13, 184, 0, 0, 0, 1, 0, 0, 0, 0, 0, 0, 0, 0] ∧
    ¬ (([32, 1, 13, 184, 0, 0, 0, 1, 0, 0, 0, 0, 0, 0, 0, 0] : List Nat).getD 15 0 =
        ([32, 1, 13, 184, 0, 0, 0, 0, 0, 0, 0, 0, 0, 0, 0, 1] : List Nat).getD 15 0) := by
  refine ⟨by decide, by rfl, by decide⟩

/-- C5 witness: the amended theorem applied to that same successful step;
the result's host-side bytes are all zero. -/
theorem iplib_C5_witness :
    [32, 1, 13, 184, 0, 0, 0, 1, 0, 0, 0, 0, 0, 0, 0, 0] =
        [32, 1, 13, 184, 0, 0, 0, 0, 0, 0, 0, 0, 0, 0, 0, 1] ∨
      ∀ i, (Net6.mk [32, 1, 13, 184, 0, 0, 0, 0, 0, 0, 0, 0, 0, 0, 0, 0] 56 8 6).netbytes ≤ i →
        ([32, 1, 13, 184, 0, 0, 0, 1, 0, 0, 0, 0, 0, 0, 0, 0] : List Nat).getD i 0 = 0 :=
  (iplib_C5 ⟨[32, 1, 13, 184, 0, 0, 0, 0, 0, 0, 0, 0, 0, 0, 0, 0], 56, 8, 6⟩
    [32, 1, 13, 184, 0, 0, 0, 0, 0, 0, 0, 0, 0, 0, 0, 1] (by decide) (by decide)).1
    [32, 1, 13, 184, 0, 0, 0, 1, 0, 0, 0, 0, 0, 0, 0, 0] (by rfl)

end Iplib

namespace Iplib

/-- C6 (amended): family-A stepping behaves as claimed - the not-found
error is returned exactly when the input is not a member, the
end-of-range error exactly when the stepped address leaves the block, and
landing on the broadcast (resp. network) address returns the address
together with the advisory error.  Family-B stepping, however, never
tests the input for membership: it returns ErrAddressOutOfRange (NextIP)
resp. ErrAddressAtEndOfRange (PreviousIP) exactly when the STEPPED
address is not contained in the block. -/
theorem iplib_C6 :
    (∀ (n : Net4) (ip : List Nat),
      ((n.nextIPIn ip).2 = some .addressOutOfRange ↔ n.Contains ip = false) ∧
      (n.Contains ip = true →
        ((n.nextIPIn ip).2 = some .addressAtEndOfRange ↔
          n.Contains (NextIP ip) = false)) ∧
      (n.Contains ip = true → n.Contains (NextIP ip) = true → n.version = 4 →
        n.BroadcastAddress = NextIP ip →
        n.nextIPIn ip = (NextIP ip, some .broadcastAddress)) ∧
      ((n.previousIPIn ip).2 = some .addressOutOfRange ↔ n.Contains ip = false) ∧
      (n.Contains ip = true →
        ((n.previousIPIn ip).2 = some .addressAtEndOfRange ↔
          n.Contains (PreviousIP ip) = false)) ∧
      (n.Contains ip = true → n.Contains (PreviousIP ip) = true → n.version = 4 →
        n.NetworkAddress = PreviousIP ip →
        n.previousIPIn ip = (PreviousIP ip, some .networkAddress)))
    ∧ (∀ (n : Net6) (ip : List Nat),
      (n.nextIPIn ip = .error .addressOutOfRange ↔
        n.Contains (n.nextIPWithNetworkBytes ip) = false) ∧
      (n.Contains (n.nextIPWithNetworkBytes ip) = true →
        n.nextIPIn ip = .ok (n.nextIPWithNetworkBytes ip)) ∧
      (n.previousIPIn ip = .error .addressAtEndOfRange ↔
        n.Contains (n.previousIPWithNetworkBytes ip) = false) ∧
      (n.Contains (n.previousIPWithNetworkBytes ip) = true →
        n.previousIPIn ip = .ok (n.previousIPWithNetworkBytes ip))) := by
  constructor
  · intro n ip
    refine ⟨?_, ?_, ?_, ?_, ?_, ?_⟩
    · by_cases hc : n.Contains ip = true
      · simp only [Net4.nextIPIn, hc]
        by_cases hc2 : n.Contains (NextIP ip) = true
        · by_cases hbv : n.BroadcastAddress = NextIP ip ∧ n.version = 4
          · simp [hc2, hbv, hc]
          · simp [hc2, hbv, hc]
        · have : n.Contains (NextIP ip) = false := Bool.eq_false_iff.mpr hc2
          simp [this, hc]
      · have hcf : n.Contains ip = false := Bool.eq_false_iff.mpr hc
        simp [Net4.nextIPIn, hcf]
    · intro hc
      simp only [Net4.nextIPIn, hc]
      by_cases hc2 : n.Contains (NextIP ip) = true
      · by_cases hbv : n.BroadcastAddress = NextIP ip ∧ n.version = 4
        · simp [hc2, hbv]
        · simp [hc2, hbv]
      · have : n.Contains (NextIP ip) = false := Bool.eq_false_iff.mpr hc2
        simp [this]
    · intro hc hc2 hver hbc
      simp [Net4.nextIPIn, hc, hc2, hbc, hver]
    · by_cases hc : n.Contains ip = true
      · simp only [Net4.previousIPIn, hc]
        by_cases hc2 : n.Contains (PreviousIP ip) = true
        · by_cases hbv : n.NetworkAddress = PreviousIP ip ∧ n.version = 4
          · simp [hc2, hbv, hc]
          · simp [hc2, hbv, hc]
        · have : n.Contains (PreviousIP ip) = false := Bool.eq_false_iff.mpr hc2
          simp [this, hc]
      · have hcf : n.Contains ip = false := Bool.eq_false_iff.mpr hc
        simp [Net4.previousIPIn, hcf]
    · intro hc
      simp only [Net4.previousIPIn, hc]
      by_cases hc2 : n.Contains (PreviousIP ip) = true
      · by_cases hbv : n.NetworkAddress = PreviousIP ip ∧ n.version = 4
        · simp [hc2, hbv]
        · simp [hc2, hbv]
      · have : n.Contains (PreviousIP ip) = false := Bool.eq_false_iff.mpr hc2
        simp [this]
    · intro hc hc2 hver hbc
      simp [Net4.previousIPIn, hc, hc2, hbc, hver]
  · intro n ip
    refine ⟨?_, ?_, ?_, ?_⟩
    · by_cases hc : n.Contains (n.nextIPWithNetworkBytes ip) = true
      · simp [Net6.nextIPIn, hc]
      · have : n.Contains (n.nextIPWithNetworkBytes ip) = false :=
          Bool.eq_false_iff.mpr hc
        simp [Net6.nextIPIn, this]
    · intro hc
      simp [Net6.nextIPIn, hc]
    · by_cases hc : n.Contains (n.previousIPWithNetworkBytes ip) = true
      · simp [Net6.previousIPIn, hc]
      · have : n.Contains (n.previousIPWithNetworkBytes ip) = false :=
          Bool.eq_false_iff.mpr hc
        simp [Net6.previousIPIn, this]
    · intro hc
      simp [Net6.previousIPIn, hc]

/-- C6 counterexample: for Net6 the claim "the not-found error is returned
exactly when the input is not a member" fails: 2001:db7:ffff:ffff:: is not
a member of 2001:db8::/64, yet NextIP succeeds (the carry from the
network bytes lands inside the block). -/
theorem iplib_C6_counterexample :
    Net6.Contains ⟨[32, 1, 13, 184, 0, 0, 0, 0, 0, 0, 0, 0, 0, 0, 0, 0], 64, 8, 6⟩
      [32, 1, 13, 183, 255, 255, 255, 255, 0, 0, 0, 0, 0, 0, 0, 0] = false ∧
    Net6.nextIPIn ⟨[32, 1, 13, 184, 0, 0, 0, 0, 0, 0, 0, 0, 0, 0, 0, 0], 64, 8, 6⟩
        [32, 1, 13, 183, 255, 255, 255, 255, 0, 0, 0, 0, 0, 0, 0, 0] =
      .ok [32, 1, 13, 184, 0, 0, 0, 0, 0, 0, 0, 0, 0, 0, 0, 0] := by
  refine ⟨by decide, by rfl⟩

/-- C6 witness: the family-A advisory-broadcast clause at 192.168.1.0/24
stepping 192.168.1.254 onto the broadcast address. -/
theorem iplib_C6_witness :
    Net4.nextIPIn ⟨[192, 168, 1, 0], 24, 4⟩ [192, 168, 1, 254] =
      (NextIP [192, 168, 1, 254], some .broadcastAddress) :=
  (iplib_C6.1 ⟨[192, 168, 1, 0], 24, 4⟩ [192, 168, 1, 254]).2.2.1
    (by decide) (by decide) rfl (by decide)

end Iplib

namespace Iplib

/-- C7: code_bug evidence.  `Net4.Subnet` checks `ones > masklen` BEFORE
substituting the 0 sentinel, so `Subnet(0)` on 192.168.1.0/24 returns
ErrBadMaskLength - contradicting the function's own doc comment
("If set to 0 Subnet will carve the network in half", with the example
Net{192.168.1.0/24}.Subnet(0) -> two /25s) and the claim's sentinel
clause.  On a /0 block (the only prefix for which `ones > 0` fails) the
sentinel does work and splits in half. -/
theorem iplib_C7 :
    NewNet4 [192, 168, 1, 0] 24 = .ok ⟨[192, 168, 1, 0], 24, 4⟩ ∧
    Net4.Subnet ⟨[192, 168, 1, 0], 24, 4⟩ 0 = .error .badMaskLength := by
  exact ⟨rfl, rfl⟩

/-- C8 (amended): CompareIPs is a three-valued total preorder computed by
byte-for-byte lexicographic comparison after To16 normalization, where a
4-byte address is prefixed with TEN zero bytes and two 0xff bytes (the
IPv4-mapped prefix) - not with twelve zero bytes as the claim says; the
resulting ascending order on same-family addresses matches the integer
values under IP4ToUint32 / IPToBigint. -/
theorem iplib_C8 :
    (∀ a b : List Nat,
      CompareIPs a b = -1 ∨ CompareIPs a b = 0 ∨ CompareIPs a b = 1)
    ∧ (∀ a : List Nat, CompareIPs a a = 0)
    ∧ (∀ a b : List Nat, CompareIPs a b = -CompareIPs b a)
    ∧ (∀ a : List Nat, a.length = 4 → to16 a = v4InV6Prefix ++ a)
    ∧ (∀ a b c : List Nat,
        a.length = 4 ∨ a.length = 16 → b.length = 4 ∨ b.length = 16 →
        c.length = 4 ∨ c.length = 16 →
        validBytes a → validBytes b → validBytes c →
        CompareIPs a b = -1 → CompareIPs b c = -1 → CompareIPs a c = -1)
    ∧ (∀ a b : List Nat, a.length = 4 → b.length = 4 →
        validBytes a → validBytes b →
        (CompareIPs a b = -1 ↔ IP4ToUint32 a < IP4ToUint32 b))
    ∧ (∀ a b : List Nat, a.length = 16 → b.length = 16 →
        validBytes a → validBytes b →
        (CompareIPs a b = -1 ↔ IPToBigint a < IPToBigint b)) := by
  refine ⟨CompareIPs_trichot, CompareIPs_self, CompareIPs_swap,
    fun a h => to16_of_length4 h, ?_, ?_, ?_⟩
  · intro a b c ha4 hb4 hc4 hva hvb hvc hab hbc
    have hla : (to16 a).length = 16 := to16_length ha4
    have hlb : (to16 b).length = 16 := to16_length hb4
    have hlc : (to16 c).length = 16 := to16_length hc4
    have h1 := (bytesCompare_neg_iff_ipVal (by omega) (to16_validBytes hva)
      (to16_validBytes hvb)).mp hab
    have h2 := (bytesCompare_neg_iff_ipVal (by omega) (to16_validBytes hvb)
      (to16_validBytes hvc)).mp hbc
    exact (bytesCompare_neg_iff_ipVal (by omega) (to16_validBytes hva)
      (to16_validBytes hvc)).mpr (by omega)
  · intro a b ha hb hva hvb
    rw [CompareIPs_neg_iff (by omega) (by omega) hva hvb,
      IP4ToUint32_of_len4 ha, IP4ToUint32_of_len4 hb]
  · intro a b ha hb hva hvb
    rw [CompareIPs_neg_iff (by omega) (by omega) hva hvb]
    unfold IPToBigint
    omega

/-- C8 counterexample: the claim's normalization ("a 4-byte address is
compared as if prefixed with twelve zero bytes") is wrong: against the
16-byte address ::2, the 4-byte address 0.0.0.1 compares GREATER (because
the real prefix is ::ffff), while the twelve-zero-byte normalization the
claim describes would make it compare less. -/
theorem iplib_C8_counterexample :
    CompareIPs [0, 0, 0, 1] [0, 0, 0, 0, 0, 0, 0, 0, 0, 0, 0, 0, 0, 0, 0, 2] = 1 ∧
    specCompareTwelveZeros [0, 0, 0, 1]
      [0, 0, 0, 0, 0, 0, 0, 0, 0, 0, 0, 0, 0, 0, 0, 2] = -1 := by
  exact ⟨by decide, by decide⟩

/-- C8 witness: the integer-order clause at two concrete v4 addresses. -/
theorem iplib_C8_witness :
    CompareIPs [10, 0, 0, 1] [10, 0, 0, 2] = -1 ↔
      IP4ToUint32 [10, 0, 0, 1] < IP4ToUint32 [10, 0, 0, 2] :=
  iplib_C8.2.2.2.2.2.1 [10, 0, 0, 1] [10, 0, 0, 2] rfl rfl (by decide) (by decide)

end Iplib

namespace Iplib

/-- C9 (amended): the capped count of Net6.Enumerate equals Count()
exactly when Count() fits the SIGNED 64-bit type (big.Int.IsInt64, i.e.
at most 2^63 - 1), not the unsigned type the claim names; otherwise the
maximum-uint64 sentinel is substituted.  Consequently the offset > Count
=> empty property only holds for blocks whose count is at most 2^63 - 1
(see the counterexample at /65, whose count 2^63 fits a uint64 but is
still replaced by the sentinel). -/
theorem iplib_C9 :
    (∀ n : Net6, n.cappedCount = n.Count ↔ n.Count ≤ 2 ^ 63 - 1)
    ∧ (∀ n : Net6, ¬ n.Count ≤ 2 ^ 63 - 1 → n.cappedCount = 2 ^ 64 - 1)
    ∧ (∀ (n : Net6) (size offset : Nat), n.Count ≤ 2 ^ 63 - 1 →
        n.Count < offset → n.Enumerate size offset = some []) := by
  have hcap : ∀ n : Net6, ¬ n.Count ≤ 2 ^ 63 - 1 → n.cappedCount = 2 ^ 64 - 1 := by
    intro n h
    unfold Net6.cappedCount Net6.countIsInt64
    rw [if_neg (by simpa using h)]
  have hcapeq : ∀ n : Net6, n.Count ≤ 2 ^ 63 - 1 → n.cappedCount = n.Count := by
    intro n h
    unfold Net6.cappedCount Net6.countIsInt64
    rw [if_pos (by simpa using h)]
  refine ⟨?_, hcap, ?_⟩
  · intro n
    constructor
    · intro heq
      by_contra hno
      have hsen := hcap n hno
      rw [hsen] at heq
      unfold Net6.Count at heq hno
      by_cases h1 : 128 - n.masklen = 1
      · rw [if_pos h1] at heq hno
        omega
      · by_cases h2 : 128 - n.masklen = 0
        · rw [if_neg h1, if_pos h2] at heq hno
          omega
        · rw [if_neg h1, if_neg h2] at heq hno
          have hdvd : 2 ∣ 2 ^ (128 - n.masklen) := dvd_pow_self 2 h2
          omega
    · exact hcapeq n
  · intro n size offset hle hgt
    simp only [Net6.Enumerate]
    rw [hcapeq n hle, if_pos hgt]

/-- C9 counterexample: the /65 block has Count() = 2^63, which fits a
uint64, yet the code substitutes the sentinel (IsInt64 is false), and
Enumerate with an offset beyond Count() is NOT empty. -/
theorem iplib_C9_counterexample :
    Net6.Count ⟨List.replicate 16 0, 65, 8, 6⟩ = 2 ^ 63 ∧
    2 ^ 63 < 2 ^ 64 ∧
    Net6.cappedCount ⟨List.replicate 16 0, 65, 8, 6⟩ = 2 ^ 64 - 1 ∧
    ¬ Net6.cappedCount ⟨List.replicate 16 0, 65, 8, 6⟩ =
        Net6.Count ⟨List.replicate 16 0, 65, 8, 6⟩ ∧
    ¬ Net6.Enumerate ⟨List.replicate 16 0, 65, 8, 6⟩ 0 (2 ^ 63 + 1) = some [] := by
  have hc : Net6.cappedCount ⟨List.replicate 16 0, 65, 8, 6⟩ = 2 ^ 64 - 1 := by
    decide
  refine ⟨by decide, by decide, hc, by decide, ?_⟩
  have henum : Net6.Enumerate ⟨List.replicate 16 0, 65, 8, 6⟩ 0 (2 ^ 63 + 1) =
      some (ipChain
        (IncrementIP6By (Net6.FirstAddress ⟨List.replicate 16 0, 65, 8, 6⟩)
          ((2 ^ 63 + 1 : Nat) : Int))
        (2 ^ 63 - 2)) := by
    simp only [Net6.Enumerate]
    rw [hc, if_neg (by norm_num)]
    norm_num
  rw [henum]
  intro h
  have := @ipChain_ne_nil (IncrementIP6By
    (Net6.FirstAddress ⟨List.replicate 16 0, 65, 8, 6⟩) ((2 ^ 63 + 1 : Nat) : Int))
    (2 ^ 63 - 2) (by norm_num)
  simp only [Option.some.injEq] at h
  exact this h

/-- C9 witness: the amended claim at a /120 block (count 256 fits int64):
an offset beyond the count yields the empty enumeration. -/
theorem iplib_C9_witness :
    Net6.Enumerate ⟨[32, 1, 13, 184, 0, 0, 0, 0, 0, 0, 0, 0, 0, 0, 0, 0], 120, 8, 6⟩
      0 257 = some [] :=
  iplib_C9.2.2 ⟨[32, 1, 13, 184, 0, 0, 0, 0, 0, 0, 0, 0, 0, 0, 0, 0], 120, 8, 6⟩
    0 257 (by decide) (by decide)

/-- C10: code_bug evidence.  Enumerate is NOT total: at offset equal to
the block's count the adjusted size becomes 0 and the unguarded
`addrList[0]` write indexes an empty slice - a runtime panic (modelled as
`none`) - for family-A blocks on the general path (count at least 2) and
for every family-B block. -/
theorem iplib_C10 :
    NewNet4 [192, 168, 0, 0] 30 = .ok ⟨[192, 168, 0, 0], 30, 4⟩ ∧
    Net4.Count ⟨[192, 168, 0, 0], 30, 4⟩ = 2 ∧
    Net4.Enumerate ⟨[192, 168, 0, 0], 30, 4⟩ 0 2 = none ∧
    Net6.Count ⟨[32, 1, 13, 184, 0, 0, 0, 0, 0, 0, 0, 0, 0, 0, 0, 0], 120, 8, 6⟩ = 256 ∧
    Net6.Enumerate ⟨[32, 1, 13, 184, 0, 0, 0, 0, 0, 0, 0, 0, 0, 0, 0, 0], 120, 8, 6⟩
      0 256 = none := by
  exact ⟨rfl, rfl, rfl, rfl, by decide⟩

end Iplib
